import Mathlib

/-!
Verification development for the pydiskmark benchmark orchestrator
(`src/src/main.rs`).  The engine's pure core is embedded shallowly:

* the Job Document model and the Job Splitter `fio::gen_fio_job_configs`;
* the JSON-extraction and decoding step of `fio::run_jobs`;
* the embedded-backend trial loops `disktest::run_write` / `disktest::run_verify`.
-/

/-- Modelled from the spec: the Job Document produced by the external INI
parser (`configparser::ini::Ini`), an ordered mapping from section name to a
mapping from key to optional string value.  The concrete map type's iteration
order is fixed by a crate feature selection in `Cargo.toml`, which is not among
the provided sources; the insertion-ordered behaviour is taken from the spec
("iterate the document's sections in their natural (insertion) order").
Section names and keys arrive already lower-cased by the parser, so the
parser's case folding is not repeated here. -/
structure Ini where
  sections : List (String × List (String × Option String))
deriving DecidableEq, Repr

/-- Section names of a document, in document order (`Ini::sections`). -/
def Ini.sectionNames (c : Ini) : List String := c.sections.map Prod.fst

/-- Embedding of `configparser`'s `Ini::get_map`, which returns `None` when
the document holds no sections at all. -/
def Ini.get_map (c : Ini) :
    Option (List (String × List (String × Option String))) :=
  if c.sections.isEmpty then none else some c.sections

/-- Embedding of `Ini::remove_section`: drop the section with the given name
(the removed value, returned by the Rust API, is discarded by the caller). -/
def Ini.remove_section (c : Ini) (name : String) : Ini :=
  ⟨c.sections.filter (fun s => s.1 ≠ name)⟩

/-- Insert `key ↦ v` into one section's key/value list: an existing key is
updated in place, a new key is appended (insertion-ordered map insert). -/
def setKV (kvs : List (String × Option String)) (key : String)
    (v : Option String) : List (String × Option String) :=
  if kvs.any (fun kv => kv.1 = key) then
    kvs.map (fun kv => if kv.1 = key then (kv.1, v) else kv)
  else kvs ++ [(key, v)]

/-- Embedding of `Ini::set`: update the named section's map (creating the
section at the end of the document when absent). -/
def Ini.set (c : Ini) (sec key : String) (v : Option String) : Ini :=
  if c.sections.any (fun s => s.1 = sec) then
    ⟨c.sections.map (fun s => if s.1 = sec then (s.1, setKV s.2 key v) else s)⟩
  else ⟨c.sections ++ [(sec, [(key, v)])]⟩

/-- Look up a whole section (first occurrence of the name). -/
def Ini.getSection (c : Ini) (sec : String) :
    Option (List (String × Option String)) :=
  (c.sections.find? (fun s => s.1 = sec)).map Prod.snd

/-- Look up one key inside a section. -/
def Ini.get (c : Ini) (sec key : String) : Option (Option String) :=
  (c.getSection sec).bind (fun kvs => (kvs.find? (fun kv => kv.1 = key)).map Prod.snd)

/-- Body of the inner loop of `gen_fio_job_configs` (src/src/main.rs:123-128):
starting from a clone of the whole document, remove every section other than
the current target and `global`. -/
def removeOthers (config : Ini) (section_name : String) : Ini :=
  config.sectionNames.foldl
    (fun cur key =>
      if key = section_name ∨ key = "global" then cur
      else cur.remove_section key)
    config

/-- One iteration body of `gen_fio_job_configs` for a non-`global` section
(src/src/main.rs:122-131): clone the document, strip the other sections, then
force `startdelay = "0"` on the retained section (the source re-checks
`section_name != "global"` before the `set`; the redundant check is kept). -/
def mkJob (config : Ini) (section_name : String) : Ini :=
  let current_job := removeOthers config section_name
  if section_name ≠ "global" then
    current_job.set section_name "startdelay" (some "0")
  else current_job

/-- Embedding of `fio::gen_fio_job_configs` (src/src/main.rs:112-135).
`config.get_map().unwrap()` panics on an empty document, embedded as `none`;
otherwise iterate the map's entries, skipping `global`, and emit one job per
remaining section. -/
def gen_fio_job_configs (config : Ini) : Option (List Ini) :=
  match config.get_map with
  | none => none
  | some map =>
      some <| map.foldl
        (fun job_configs entry =>
          if entry.1 = "global" then job_configs
          else job_configs ++ [mkJob config entry.1])
        []

/-! Text model for subprocess output (`fio::run_jobs`, src/src/main.rs:158-170).
Captured stdout is modelled as a list of characters. -/

/-- Rust's `str::starts_with(char)`. -/
def startsWithChar (s : List Char) (c : Char) : Bool :=
  match s with
  | [] => false
  | c' :: _ => c' = c

/-- Split at every newline character, keeping a (possibly empty) final part. -/
def splitNL : List Char → List (List Char)
  | [] => [[]]
  | c :: cs =>
      if c = '\n' then [] :: splitNL cs
      else
        match splitNL cs with
        | [] => [[c]]
        | l :: ls => (c :: l) :: ls

/-- Drop the final part when the text ended with a newline (Rust's `lines`
yields no final empty line for a trailing newline). -/
def dropTrailingEmpty (ls : List (List Char)) : List (List Char) :=
  match ls.getLast? with
  | some [] => ls.dropLast
  | _ => ls

/-- Strip one trailing carriage return from a line (Rust's `lines`). -/
def stripCR (l : List Char) : List Char :=
  match l.getLast? with
  | some c => if c = '\r' then l.dropLast else l
  | none => l

/-- Rust's `str::lines`: newline-separated parts, no final empty part for a
trailing newline, each part stripped of one trailing `\r`. -/
def rustLines (s : List Char) : List (List Char) :=
  (dropTrailingEmpty (splitNL s)).map stripCR

/-! A JSON value model and a recursive-descent parser embedding
`serde_json::from_str::<serde_json::Value>`: one JSON value per the JSON
grammar, with only whitespace permitted after it (trailing characters are a
parse error).  Unicode surrogate-pair escapes are not modelled (no claim
exercises them); every other part of the grammar is. -/

inductive Json where
  | null
  | bool (b : Bool)
  | num (lex : List Char)
  | str (s : List Char)
  | arr (elems : List Json)
  | obj (members : List (List Char × Json))
deriving Repr

/-- JSON whitespace (space, tab, line feed, carriage return). -/
def isJsonWs (c : Char) : Bool :=
  c = ' ' || c = '\t' || c = '\n' || c = '\r'

/-- Skip leading JSON whitespace. -/
def skipWs : List Char → List Char
  | [] => []
  | c :: cs => if isJsonWs c then skipWs cs else c :: cs

/-- ASCII decimal digit test. -/
def isDigitCh (c : Char) : Bool := '0' ≤ c && c ≤ '9'

/-- ASCII hexadecimal digit test. -/
def isHexCh (c : Char) : Bool :=
  isDigitCh c || ('a' ≤ c && c ≤ 'f') || ('A' ≤ c && c ≤ 'F')

/-- Numeric value of a hexadecimal digit. -/
def hexVal (c : Char) : Nat :=
  if isDigitCh c then c.toNat - '0'.toNat
  else if 'a' ≤ c && c ≤ 'f' then c.toNat - 'a'.toNat + 10
  else if 'A' ≤ c && c ≤ 'F' then c.toNat - 'A'.toNat + 10
  else 0

/-- Take the longest leading run of decimal digits. -/
def takeDigits : List Char → List Char × List Char
  | [] => ([], [])
  | c :: cs =>
      if isDigitCh c then
        let p := takeDigits cs
        (c :: p.1, p.2)
      else ([], c :: cs)

/-- Integer part of a JSON number: `0`, or a nonzero digit followed by
digits (leading zeros are rejected, as serde does). -/
def parseIntPart : List Char → Option (List Char × List Char)
  | [] => none
  | c :: cs =>
      if c = '0' then some ([c], cs)
      else if isDigitCh c then
        let p := takeDigits cs
        some (c :: p.1, p.2)
      else none

/-- Optional fraction part of a JSON number (`.` then at least one digit). -/
def parseFracPart : List Char → Option (List Char × List Char)
  | '.' :: cs =>
      match takeDigits cs with
      | ([], _) => none
      | (d, r) => some ('.' :: d, r)
  | s => some ([], s)

/-- Exponent tail after `e`/`E`: optional sign then at least one digit. -/
def parseExpTail (e : Char) (cs : List Char) : Option (List Char × List Char) :=
  let p : List Char × List Char :=
    match cs with
    | '+' :: r => (['+'], r)
    | '-' :: r => (['-'], r)
    | _ => ([], cs)
  match takeDigits p.2 with
  | ([], _) => none
  | (d, r) => some (e :: (p.1 ++ d), r)

/-- Optional exponent part of a JSON number. -/
def parseExpPart : List Char → Option (List Char × List Char)
  | 'e' :: cs => parseExpTail 'e' cs
  | 'E' :: cs => parseExpTail 'E' cs
  | s => some ([], s)

/-- A JSON number token (returned as its lexeme, the way `serde_json`
tokenizes: optional minus, integer part, optional fraction and exponent). -/
def parseNumber (s : List Char) : Option (List Char × List Char) :=
  let p : List Char × List Char :=
    match s with
    | '-' :: cs => (['-'], cs)
    | _ => ([], s)
  match parseIntPart p.2 with
  | none => none
  | some (ip, s2) =>
      match parseFracPart s2 with
      | none => none
      | some (fp, s3) =>
          match parseExpPart s3 with
          | none => none
          | some (ep, s4) => some (p.1 ++ ip ++ fp ++ ep, s4)

/-- Body of a JSON string after the opening quote: content up to the closing
quote, decoding escapes; raw control characters are rejected. -/
def parseStringBody : Nat → List Char → Option (List Char × List Char)
  | 0, _ => none
  | _ + 1, [] => none
  | fuel + 1, c :: cs =>
      if c = '"' then some ([], cs)
      else if c = '\\' then
        match cs with
        | '"' :: r => (parseStringBody fuel r).map (fun p => ('"' :: p.1, p.2))
        | '\\' :: r => (parseStringBody fuel r).map (fun p => ('\\' :: p.1, p.2))
        | '/' :: r => (parseStringBody fuel r).map (fun p => ('/' :: p.1, p.2))
        | 'b' :: r => (parseStringBody fuel r).map (fun p => (Char.ofNat 8 :: p.1, p.2))
        | 'f' :: r => (parseStringBody fuel r).map (fun p => (Char.ofNat 12 :: p.1, p.2))
        | 'n' :: r => (parseStringBody fuel r).map (fun p => ('\n' :: p.1, p.2))
        | 'r' :: r => (parseStringBody fuel r).map (fun p => ('\r' :: p.1, p.2))
        | 't' :: r => (parseStringBody fuel r).map (fun p => ('\t' :: p.1, p.2))
        | 'u' :: h1 :: h2 :: h3 :: h4 :: r =>
            if isHexCh h1 && isHexCh h2 && isHexCh h3 && isHexCh h4 then
              let n := ((hexVal h1 * 16 + hexVal h2) * 16 + hexVal h3) * 16 + hexVal h4
              if 0xD800 ≤ n && n < 0xE000 then none
              else (parseStringBody fuel r).map (fun p => (Char.ofNat n :: p.1, p.2))
            else none
        | _ => none
      else if c.toNat < 32 then none
      else (parseStringBody fuel cs).map (fun p => (c :: p.1, p.2))

mutual

/-- Parse one JSON value (fuelled recursive descent over the JSON grammar). -/
def parseValue : Nat → List Char → Option (Json × List Char)
  | 0, _ => none
  | fuel + 1, s =>
      match s with
      | [] => none
      | c :: cs =>
          if c = '"' then
            (parseStringBody (fuel + 1) cs).map (fun p => (Json.str p.1, p.2))
          else if c = '{' then
            match skipWs cs with
            | '}' :: r => some (Json.obj [], r)
            | s1 => (parseMembers fuel s1).map (fun p => (Json.obj p.1, p.2))
          else if c = '[' then
            match skipWs cs with
            | ']' :: r => some (Json.arr [], r)
            | s1 => (parseElems fuel s1).map (fun p => (Json.arr p.1, p.2))
          else if c = 't' then
            match cs with
            | 'r' :: 'u' :: 'e' :: r => some (Json.bool true, r)
            | _ => none
          else if c = 'f' then
            match cs with
            | 'a' :: 'l' :: 's' :: 'e' :: r => some (Json.bool false, r)
            | _ => none
          else if c = 'n' then
            match cs with
            | 'u' :: 'l' :: 'l' :: r => some (Json.null, r)
            | _ => none
          else if c = '-' || isDigitCh c then
            (parseNumber (c :: cs)).map (fun p => (Json.num p.1, p.2))
          else none

/-- Parse the (nonempty) member list of a JSON object, up to and including the
closing brace. -/
def parseMembers : Nat → List Char → Option (List (List Char × Json) × List Char)
  | 0, _ => none
  | fuel + 1, s =>
      match s with
      | '"' :: cs =>
          match parseStringBody (fuel + 1) cs with
          | none => none
          | some (key, r1) =>
              match skipWs r1 with
              | ':' :: r2 =>
                  match parseValue fuel (skipWs r2) with
                  | none => none
                  | some (v, r3) =>
                      match skipWs r3 with
                      | ',' :: r4 =>
                          match parseMembers fuel (skipWs r4) with
                          | none => none
                          | some (ms, r5) => some ((key, v) :: ms, r5)
                      | '}' :: r4 => some ([(key, v)], r4)
                      | _ => none
              | _ => none
      | _ => none

/-- Parse the (nonempty) element list of a JSON array, up to and including the
closing bracket. -/
def parseElems : Nat → List Char → Option (List Json × List Char)
  | 0, _ => none
  | fuel + 1, s =>
      match parseValue fuel s with
      | none => none
      | some (v, r1) =>
          match skipWs r1 with
          | ',' :: r2 =>
              match parseElems fuel (skipWs r2) with
              | none => none
              | some (vs, r3) => some (v :: vs, r3)
          | ']' :: r2 => some ([v], r2)
          | _ => none

end

/-- Embedding of `serde_json::from_str::<Value>`: one JSON value, with only
whitespace before and after it; anything else (including trailing characters
after the value) is a parse error, returned as `none`. -/
def json_from_str (s : List Char) : Option Json :=
  match parseValue (s.length + 1) (skipWs s) with
  | some (v, rest) => if skipWs rest = [] then some v else none
  | none => none

/-- Error taxonomy of the spec for the subprocess backend driver; the source
signals these conditions by panicking (`panic!` / `expect`). -/
inductive BackendError where
  | executionFailed
  | malformedOutput
deriving DecidableEq, Repr

/-- Embedding of the JSON-extraction and decoding step of `fio::run_jobs`
(src/src/main.rs:158-170): if the captured stdout starts with `\x7b` it is the
payload as a whole; otherwise all lines before the first line starting with
`\x7b` are dropped and the remaining lines are re-joined with newlines.  The
`expect`-panic on a failed `serde_json::from_str` is embedded as the typed
error `BackendError.malformedOutput`. -/
def parse_job_output (output : List Char) : Except BackendError Json :=
  let payload :=
    if startsWithChar output '{' then output
    else List.intercalate ['\n']
      ((rustLines output).dropWhile (fun l => !startsWithChar l '{'))
  match json_from_str payload with
  | some v => Except.ok v
  | none => Except.error BackendError.malformedOutput

/-! Embedded-backend trial loops (`disktest::run_write`, src/src/main.rs:266-323,
and `disktest::run_verify`, src/src/main.rs:325-353).  The library call of each
iteration (`disktest.write` / `disktest.verify` over the freshly opened file and
freshly seeded stream) is abstracted as a function from the iteration index to
its outcome; `DisktestFile::open(..).unwrap()` aborts both flows on failure and
lies outside the modelled operation. -/

/-- Opaque error of the embedded disktest library. -/
inductive DtErr where
  | fail
deriving DecidableEq, Repr

/-- Observable steps of a trial loop: one execution of the backend operation,
or a `thread::sleep` of the given number of seconds. -/
inductive DtEvent where
  | exec (i : Nat)
  | sleep (secs : Nat)
deriving DecidableEq, Repr

/-- Whether a trial-loop event is an execution of the backend operation. -/
def DtEvent.isExec : DtEvent → Bool
  | .exec _ => true
  | .sleep _ => false

/-- Modulus of the `u64` arithmetic used for the result aggregation. -/
def U64 : Nat := 2 ^ 64

/-- The u64 fold `results.iter().fold(0, |acc, &x| acc + x)` with wrapping
addition. -/
def u64sum (l : List Nat) : Nat :=
  l.foldl (fun acc x => (acc + x) % U64) 0

/-- The absorption of a failed `disktest.write` into a zero measurement
(src/src/main.rs:290-293): `Ok(result) => result, Err(_) => 0`. -/
def absorb : Except DtErr Nat → Nat
  | .ok v => v
  | .error _ => 0

/-- Embedding of `disktest::run_write` (src/src/main.rs:266-323): six
sequential iterations; each runs the write operation (failures absorbed to a
zero measurement), retains the result only after the warmup flag is set, and
sleeps five seconds; finally the retained results are folded with u64 addition
and divided (u64 integer division) by their number.  Returns the event trace
and the returned figure. -/
def run_write (op : Nat → Except DtErr Nat) : List DtEvent × Nat :=
  let fin := (List.range 6).foldl
    (fun (st : Bool × List Nat × List DtEvent) i =>
      let warm := st.1
      let result := absorb (op i)
      let tr := st.2.2 ++ [DtEvent.exec i]
      let results := if warm then st.2.1 ++ [result] else st.2.1
      (true, results, tr ++ [DtEvent.sleep 5]))
    (false, [], [])
  (fin.2.2, u64sum fin.2.1 / fin.2.1.length)

/-- Loop of `disktest::run_verify` (src/src/main.rs:332-349), by remaining
iteration count: the verify operation's result is taken with `.unwrap()`, so
the first failure aborts the run immediately; there is no sleep.  After the
loop the retained results are aggregated as in the write flow. -/
def run_verify_go (op : Nat → Except DtErr Nat) :
    Nat → Nat → Bool → List Nat → List DtEvent → List DtEvent × Except DtErr Nat
  | 0, _i, _warm, results, tr => (tr, Except.ok (u64sum results / results.length))
  | fuel + 1, i, warm, results, tr =>
      match op i with
      | Except.error e => (tr ++ [DtEvent.exec i], Except.error e)
      | Except.ok r =>
          run_verify_go op fuel (i + 1) true
            (if warm then results ++ [r] else results) (tr ++ [DtEvent.exec i])

/-- Embedding of `disktest::run_verify` (src/src/main.rs:325-353): six
sequential iterations with warmup discard and aggregation, no inter-trial
delay, aborting on the first library failure. -/
def run_verify (op : Nat → Except DtErr Nat) : List DtEvent × Except DtErr Nat :=
  run_verify_go op 6 0 false [] []

/-- Error taxonomy entry for an aggregation over too few retained trials. -/
inductive AggError where
  | aggregationError
deriving DecidableEq, Repr

/-- Modelled from the spec: the count-parameterized Trial Protocol
`run_trials(count, op)` of spec §4.4; the source hardcodes `count = 6` inside
`run_write`/`run_verify` rather than defining this function.  The loop
structure (warmup flag, retained-results vector, u64 fold and division by the
retained count) follows the source loops; the u64 division by zero that Rust
panics on when no result was retained is embedded as `AggregationError`. -/
def run_trials (count : Nat) (op : Nat → Nat) : Except AggError Nat :=
  let fin := (List.range count).foldl
    (fun (st : Bool × List Nat) i =>
      (true, if st.1 then st.2 ++ [op i] else st.2))
    (false, [])
  if fin.2.length = 0 then Except.error AggError.aggregationError
  else Except.ok (u64sum fin.2 / fin.2.length)

/-! Explicit-mutation embedding of the Job Splitter, for the frame property:
the heap holds INI documents, a document's address is its index, and every
mutation of `current_job` is a write to the clone's cell. -/

/-- Dereference an address in the document heap. -/
def readIni (h : List Ini) (a : Nat) : Ini := (h.get? a).getD ⟨[]⟩

/-- Overwrite the document at an address. -/
def writeIni (h : List Ini) (a : Nat) (v : Ini) : List Ini := h.set a v

/-- One outer-loop iteration of `gen_fio_job_configs` in the heap embedding:
for a non-`global` entry, `config.clone()` allocates a fresh cell seeded with
the borrowed document's value, the inner loop's `remove_section` calls and the
final `set` write to that cell, and the clone's address is appended to the
produced jobs. -/
def genMutStep (a : Nat) (secs : List String) (st : List Ini × List Nat)
    (entry : String × List (String × Option String)) : List Ini × List Nat :=
  if entry.1 = "global" then st
  else
    let cur := st.1.length
    let h1 := st.1 ++ [readIni st.1 a]
    let h2 := secs.foldl
      (fun h key =>
        if key = entry.1 ∨ key = "global" then h
        else writeIni h cur ((readIni h cur).remove_section key))
      h1
    let h3 :=
      if entry.1 ≠ "global" then
        writeIni h2 cur ((readIni h2 cur).set entry.1 "startdelay" (some "0"))
      else h2
    (h3, st.2 ++ [cur])

/-- Heap-level embedding of `fio::gen_fio_job_configs` (src/src/main.rs:112-135):
the borrowed input document lives at address `a`; the result is the final heap
together with the addresses of the produced jobs (`none` again embeds the
`get_map().unwrap()` panic on an empty document). -/
def gen_fio_job_configs_mut (h0 : List Ini) (a : Nat) :
    Option (List Ini × List Nat) :=
  match (readIni h0 a).get_map with
  | none => none
  | some map =>
      some (map.foldl (genMutStep a ((readIni h0 a).sectionNames)) (h0, []))

/-- Write-operation outcome used as the C2 counterexample: the five retained
trials measure 0, 0, 0, 0 and 7, whose arithmetic mean 7/5 is not an integer. -/
def cexWriteOp : Nat → Except DtErr Nat := fun i => Except.ok (if i = 5 then 7 else 0)

/-! Helper lemmas about the list operations underlying the embeddings. -/

lemma gen_foldl_eq (config : Ini) (l : List (String × List (String × Option String)))
    (acc : List Ini) :
    l.foldl
        (fun job_configs entry =>
          if entry.1 = "global" then job_configs
          else job_configs ++ [mkJob config entry.1])
        acc
      = acc ++ ((l.map Prod.fst).filter (fun s => s ≠ "global")).map (mkJob config) := by
  induction l generalizing acc with
  | nil => simp
  | cons e l ih =>
      simp only [List.foldl_cons, List.map_cons, List.filter_cons]
      by_cases h : e.1 = "global"
      · simp [h, ih]
      · simp [h, ih]

lemma gen_eq (config : Ini) (h : config.sections ≠ []) :
    gen_fio_job_configs config
      = some ((config.sectionNames.filter (fun s => s ≠ "global")).map (mkJob config)) := by
  unfold gen_fio_job_configs Ini.get_map
  rw [if_neg (by simpa [List.isEmpty_iff] using h)]
  simp only [gen_foldl_eq, List.nil_append]
  rfl

lemma foldl_remove_sections (t : String) (l : List String) (init : Ini) :
    (l.foldl
        (fun cur key =>
          if key = t ∨ key = "global" then cur
          else cur.remove_section key)
        init).sections
      = init.sections.filter (fun s => s.1 = t ∨ s.1 = "global" ∨ s.1 ∉ l) := by
  induction l generalizing init with
  | nil => simp
  | cons k l ih =>
      simp only [List.foldl_cons]
      by_cases hk : k = t ∨ k = "global"
      · rw [if_pos hk, ih]
        apply List.filter_congr
        intro s _hs
        apply decide_eq_decide.mpr
        constructor
        · intro hc
          rcases hc with h1 | h2 | h3
          · tauto
          · tauto
          · by_cases hsk : s.1 = k
            · subst hsk; tauto
            · simp [List.mem_cons, hsk]; tauto
        · intro hc
          rcases hc with h1 | h2 | h3
          · tauto
          · tauto
          · simp [List.mem_cons] at h3; tauto
      · rw [if_neg hk, ih]
        push_neg at hk
        show (Ini.remove_section init k).sections.filter _ = _
        unfold Ini.remove_section
        rw [List.filter_filter]
        apply List.filter_congr
        intro s _hs
        by_cases hsk : s.1 = k
        · subst hsk
          simp [List.mem_cons, hk.1, hk.2]
        · simp [hsk, List.mem_cons]

lemma removeOthers_sections (doc : Ini) (t : String) :
    (removeOthers doc t).sections
      = doc.sections.filter (fun s => s.1 = t ∨ s.1 = "global") := by
  unfold removeOthers
  rw [foldl_remove_sections]
  apply List.filter_congr
  intro s hs
  apply decide_eq_decide.mpr
  have hmem : s.1 ∈ doc.sectionNames := List.mem_map_of_mem Prod.fst hs
  tauto

lemma find?_filter_of_imp {α} (p q : α → Bool) (l : List α)
    (h : ∀ a, p a = true → q a = true) :
    (l.filter q).find? p = l.find? p := by
  induction l with
  | nil => rfl
  | cons a l ih =>
      rw [List.filter_cons]
      by_cases hpa : p a = true
      · have hq := h a hpa
        rw [if_pos hq, List.find?_cons_of_pos _ hpa, List.find?_cons_of_pos _ hpa]
      · by_cases hq : q a = true
        · rw [if_pos hq, List.find?_cons_of_neg _ hpa, List.find?_cons_of_neg _ hpa, ih]
        · rw [if_neg hq, ih, List.find?_cons_of_neg _ hpa]

lemma find?_name_map_ne (g t : String) (hne : g ≠ t)
    (upd : List (String × Option String) → List (String × Option String))
    (l : List (String × List (String × Option String))) :
    (l.map (fun s => if s.1 = t then (s.1, upd s.2) else s)).find? (fun s => s.1 = g)
      = l.find? (fun s => s.1 = g) := by
  induction l with
  | nil => rfl
  | cons a l ih =>
      rw [List.map_cons]
      by_cases ht : a.1 = t
      · have hg : ¬(a.1 = g) := fun hh => hne (hh.symm.trans ht)
        rw [if_pos ht, List.find?_cons_of_neg _ (by simp [hg]),
          List.find?_cons_of_neg _ (by simp [hg]), ih]
      · by_cases hg : a.1 = g
        · rw [if_neg ht, List.find?_cons_of_pos _ (by simp [hg]),
            List.find?_cons_of_pos _ (by simp [hg])]
        · rw [if_neg ht, List.find?_cons_of_neg _ (by simp [hg]),
            List.find?_cons_of_neg _ (by simp [hg]), ih]

lemma set_getSection_ne (c : Ini) (t g key : String) (v : Option String) (hne : g ≠ t) :
    (c.set t key v).getSection g = c.getSection g := by
  unfold Ini.set Ini.getSection
  by_cases hany : c.sections.any (fun s => s.1 = t)
  · rw [if_pos hany]
    show ((c.sections.map _).find? _).map Prod.snd = _
    rw [find?_name_map_ne g t hne (fun kvs => setKV kvs key v)]
  · rw [if_neg hany]
    show ((c.sections ++ [(t, [(key, v)])]).find? (fun s => s.1 = g)).map Prod.snd = _
    rw [List.find?_append]
    have hnone : ([((t : String), [(key, v)])]).find? (fun s => s.1 = g) = none := by
      rw [List.find?_cons_of_neg _ (by simp [Ne.symm hne])]
      rfl
    rw [hnone]
    cases c.sections.find? (fun s => s.1 = g) <;> rfl

lemma find?_map_set (t key : String) (v : Option String)
    (l : List (String × List (String × Option String)))
    (h : l.any (fun s => s.1 = t) = true) :
    ∃ n kvs,
      (l.map (fun s => if s.1 = t then (s.1, setKV s.2 key v) else s)).find?
          (fun s => s.1 = t) = some (n, setKV kvs key v)
        ∧ l.find? (fun s => s.1 = t) = some (n, kvs) := by
  induction l with
  | nil => simp at h
  | cons a l ih =>
      rw [List.map_cons]
      by_cases ht : a.1 = t
      · refine ⟨a.1, a.2, ?_, ?_⟩
        · rw [if_pos ht, List.find?_cons_of_pos _ (by simp [ht])]
        · rw [List.find?_cons_of_pos _ (by simp [ht])]
      · have h' : l.any (fun s => s.1 = t) = true := by
          simpa [List.any_cons, ht] using h
        obtain ⟨n, kvs, h1, h2⟩ := ih h'
        refine ⟨n, kvs, ?_, ?_⟩
        · rw [if_neg ht, List.find?_cons_of_neg _ (by simp [ht]), h1]
        · rw [List.find?_cons_of_neg _ (by simp [ht]), h2]

lemma find?_setKV (kvs : List (String × Option String)) (key : String) (v : Option String) :
    ∃ k, (setKV kvs key v).find? (fun kv => kv.1 = key) = some (k, v) := by
  unfold setKV
  by_cases hany : kvs.any (fun kv => kv.1 = key)
  · rw [if_pos hany]
    induction kvs with
    | nil => simp at hany
    | cons a l ih =>
        rw [List.map_cons]
        by_cases hk : a.1 = key
        · exact ⟨a.1, by rw [if_pos hk, List.find?_cons_of_pos _ (by simp [hk])]⟩
        · have h' : l.any (fun kv => kv.1 = key) = true := by
            simpa [List.any_cons, hk] using hany
          obtain ⟨k, hfound⟩ := ih h'
          exact ⟨k, by rw [if_neg hk, List.find?_cons_of_neg _ (by simp [hk]), hfound]⟩
  · rw [if_neg hany]
    refine ⟨key, ?_⟩
    rw [List.find?_append]
    have hnone : kvs.find? (fun kv => kv.1 = key) = none := by
      rw [List.find?_eq_none]
      intro x hx
      simp only [decide_eq_true_eq]
      intro hc
      exact hany (List.any_eq_true.mpr ⟨x, hx, by simp [hc]⟩)
    rw [hnone]
    simp [List.find?_cons_of_pos]

lemma get_set_same (c : Ini) (t key : String) (v : Option String) :
    (c.set t key v).get t key = some v := by
  unfold Ini.get Ini.getSection Ini.set
  by_cases hany : c.sections.any (fun s => s.1 = t)
  · rw [if_pos hany]
    obtain ⟨n, kvs, h1, _h2⟩ := find?_map_set t key v c.sections hany
    show (((c.sections.map _).find? _).map Prod.snd).bind _ = _
    rw [h1]
    obtain ⟨k, hk⟩ := find?_setKV kvs key v
    simp [hk]
  · rw [if_neg hany]
    show (((c.sections ++ [(t, [(key, v)])]).find? (fun s => s.1 = t)).map Prod.snd).bind _ = _
    rw [List.find?_append]
    have hnone : c.sections.find? (fun s => s.1 = t) = none := by
      rw [List.find?_eq_none]
      intro x hx
      simp only [decide_eq_true_eq]
      intro hc
      exact hany (List.any_eq_true.mpr ⟨x, hx, by simp [hc]⟩)
    rw [hnone]
    simp [List.find?_cons_of_pos]

lemma filter_ne_global_map (t : String)
    (upd : List (String × Option String) → List (String × Option String))
    (l : List (String × List (String × Option String))) :
    (l.map (fun s => if s.1 = t then (s.1, upd s.2) else s)).filter (fun s => s.1 ≠ "global")
      = (l.filter (fun s => s.1 ≠ "global")).map
          (fun s => if s.1 = t then (s.1, upd s.2) else s) := by
  rw [List.filter_map]
  congr 1
  apply List.filter_congr
  intro s _
  by_cases ht : s.1 = t <;> simp [ht, Function.comp]

lemma filter_fst_singleton {α : Type} {l : List (String × α)}
    (hnd : (l.map Prod.fst).Nodup) {t : String} (ht : t ∈ l.map Prod.fst) :
    ∃ kvs, l.filter (fun s => s.1 = t) = [(t, kvs)] := by
  induction l with
  | nil => simp at ht
  | cons a l ih =>
      rw [List.map_cons, List.nodup_cons] at hnd
      rw [List.map_cons, List.mem_cons] at ht
      rw [List.filter_cons]
      by_cases hat : a.1 = t
      · rw [if_pos (by simp [hat])]
        have hnil : l.filter (fun s => s.1 = t) = [] := by
          rw [List.filter_eq_nil_iff]
          intro b hb
          simp only [decide_eq_true_eq]
          intro hbt
          have hmem : b.1 ∈ l.map Prod.fst := List.mem_map_of_mem Prod.fst hb
          rw [hbt, ← hat] at hmem
          exact hnd.1 hmem
        rw [hnil]
        exact ⟨a.2, by simp [← hat]⟩
      · rw [if_neg (by simp [hat])]
        apply ih hnd.2
        rcases ht with h | h
        · exact absurd h.symm hat
        · exact h

lemma mkJob_shape (doc : Ini) (t : String)
    (hnd : doc.sectionNames.Nodup) (hg : "global" ∈ doc.sectionNames)
    (htmem : t ∈ doc.sectionNames) (htg : t ≠ "global") :
    (mkJob doc t).getSection "global" = doc.getSection "global" ∧
    ((mkJob doc t).getSection "global").isSome = true ∧
    ∃ kvs, doc.getSection t = some kvs ∧
      (mkJob doc t).sections.filter (fun s => s.1 ≠ "global")
        = [(t, setKV kvs "startdelay" (some "0"))] ∧
      (mkJob doc t).get t "startdelay" = some (some "0") ∧
      ((mkJob doc t).sections.map Prod.fst).filter (fun s => s ≠ "global") = [t] := by
  have hmk : mkJob doc t = (removeOthers doc t).set t "startdelay" (some "0") := by
    unfold mkJob
    rw [if_pos htg]
  obtain ⟨kvs, hsingle⟩ := filter_fst_singleton (l := doc.sections) hnd htmem
  have htro : (t, kvs) ∈ (removeOthers doc t).sections := by
    rw [removeOthers_sections, List.mem_filter]
    constructor
    · have hm : (t, kvs) ∈ doc.sections.filter (fun s => s.1 = t) := by
        rw [hsingle]; exact List.mem_singleton.mpr rfl
      exact (List.mem_filter.mp hm).1
    · simp
  have hany : (removeOthers doc t).sections.any (fun s => s.1 = t) = true :=
    List.any_eq_true.mpr ⟨(t, kvs), htro, by simp⟩
  have hfind : doc.sections.find? (fun s => s.1 = t) = some (t, kvs) := by
    have h1 : (doc.sections.filter (fun s => s.1 = t)).find? (fun s => s.1 = t)
        = doc.sections.find? (fun s => s.1 = t) :=
      find?_filter_of_imp _ _ _ (fun a ha => ha)
    rw [← h1, hsingle, List.find?_cons_of_pos _ (by simp)]
  have hgetT : doc.getSection t = some kvs := by
    unfold Ini.getSection
    rw [hfind]
    rfl
  have hglob : (mkJob doc t).getSection "global" = doc.getSection "global" := by
    rw [hmk, set_getSection_ne _ _ _ _ _ (Ne.symm htg)]
    unfold Ini.getSection
    rw [removeOthers_sections]
    rw [find?_filter_of_imp _ _ _ (fun a ha => by
      simp only [decide_eq_true_eq] at ha ⊢
      exact Or.inr ha)]
  have hgsome : (doc.getSection "global").isSome = true := by
    obtain ⟨s, hs, hfst⟩ := List.mem_map.mp hg
    unfold Ini.getSection
    cases hfind2 : doc.sections.find? (fun s => s.1 = "global") with
    | some x => rfl
    | none =>
        rw [List.find?_eq_none] at hfind2
        exact absurd (by simp [hfst]) (hfind2 s hs)
  have hsections : (mkJob doc t).sections
      = ((removeOthers doc t).sections).map
          (fun s => if s.1 = t then (s.1, setKV s.2 "startdelay" (some "0")) else s) := by
    rw [hmk]
    unfold Ini.set
    rw [if_pos hany]
  have hro_ng : (removeOthers doc t).sections.filter (fun s => s.1 ≠ "global")
      = [(t, kvs)] := by
    rw [removeOthers_sections, List.filter_filter]
    have hpq : ∀ x ∈ doc.sections,
        (decide (x.1 ≠ "global") && decide (x.1 = t ∨ x.1 = "global"))
          = decide (x.1 = t) := by
      intro x _
      by_cases h2 : x.1 = "global"
      · have h1 : ¬x.1 = t := fun h1 => htg (h1.symm.trans h2)
        simp [h1, h2, Ne.symm htg]
      · by_cases h1 : x.1 = t <;> simp [h1, h2, htg, Ne.symm htg]
    rw [List.filter_congr hpq, hsingle]
  have hng : (mkJob doc t).sections.filter (fun s => s.1 ≠ "global")
      = [(t, setKV kvs "startdelay" (some "0"))] := by
    rw [hsections, filter_ne_global_map t (fun kvs => setKV kvs "startdelay" (some "0")),
      hro_ng]
    simp
  refine ⟨hglob, by rw [hglob]; exact hgsome, kvs, hgetT, hng, ?_, ?_⟩
  · rw [hmk]
    exact get_set_same _ _ _ _
  · rw [List.filter_map]
    show ((mkJob doc t).sections.filter (fun s => s.1 ≠ "global")).map Prod.fst = [t]
    rw [hng]
    rfl

lemma u64sum_eq_sum (a b c d e : Nat) (h : a + b + c + d + e < U64) :
    u64sum [a, b, c, d, e] = a + b + c + d + e := by
  have hW : U64 = 18446744073709551616 := by norm_num [U64]
  simp only [u64sum, List.foldl, hW] at *
  omega

lemma get?_set_ne' {α : Type} (l : List α) (i j : Nat) (v : α) (h : i ≠ j) :
    (l.set i v).get? j = l.get? j := by
  rw [List.get?_eq_getElem?, List.get?_eq_getElem?, List.getElem?_set_ne h]

lemma foldl_write_frame (cur a : Nat) (hne : a ≠ cur) (e : String)
    (f : List Ini → String → Ini) (keys : List String) :
    ∀ h : List Ini,
      (keys.foldl
          (fun h key => if key = e ∨ key = "global" then h
            else writeIni h cur (f h key)) h).get? a = h.get? a
      ∧ (keys.foldl
          (fun h key => if key = e ∨ key = "global" then h
            else writeIni h cur (f h key)) h).length = h.length := by
  induction keys with
  | nil => exact fun h => ⟨rfl, rfl⟩
  | cons k ks ih =>
      intro h
      rw [List.foldl_cons]
      by_cases hk : k = e ∨ k = "global"
      · rw [if_pos hk]
        exact ih h
      · rw [if_neg hk]
        obtain ⟨ihg, ihl⟩ := ih (writeIni h cur (f h k))
        refine ⟨?_, ?_⟩
        · rw [ihg]
          exact get?_set_ne' _ _ _ _ (fun hh => hne hh.symm)
        · rw [ihl]
          exact List.length_set _ _ _

lemma genMutStep_frame (a : Nat) (secs : List String)
    (st : List Ini × List Nat) (ent : String × List (String × Option String))
    (ha : a < st.1.length) :
    (genMutStep a secs st ent).1.get? a = st.1.get? a
    ∧ st.1.length ≤ (genMutStep a secs st ent).1.length := by
  unfold genMutStep
  by_cases hglob : ent.1 = "global"
  · rw [if_pos hglob]
    exact ⟨rfl, le_refl _⟩
  · rw [if_neg hglob]
    dsimp only
    rw [if_pos (show ent.1 ≠ "global" from hglob)]
    unfold writeIni
    have hane : a ≠ st.1.length := by omega
    have h1get : (st.1 ++ [readIni st.1 a]).get? a = st.1.get? a := by
      rw [List.get?_eq_getElem?, List.get?_eq_getElem?, List.getElem?_append_left ha]
    obtain ⟨h2get, h2len⟩ :=
      foldl_write_frame st.1.length a hane ent.1
        (fun h key => (readIni h st.1.length).remove_section key) secs
        (st.1 ++ [readIni st.1 a])
    unfold writeIni at h2get h2len
    refine ⟨?_, ?_⟩
    · rw [get?_set_ne' _ _ _ _ (fun hh => hane hh.symm), h2get, h1get]
    · rw [List.length_set, h2len]
      simp

lemma foldl_genMutStep_frame (a : Nat) (secs : List String) :
    ∀ (entries : List (String × List (String × Option String)))
      (st : List Ini × List Nat), a < st.1.length →
      (entries.foldl (genMutStep a secs) st).1.get? a = st.1.get? a
      ∧ st.1.length ≤ (entries.foldl (genMutStep a secs) st).1.length := by
  intro entries
  induction entries with
  | nil => exact fun st _ => ⟨rfl, le_refl _⟩
  | cons ent ents ih =>
      intro st ha
      rw [List.foldl_cons]
      obtain ⟨hstep_get, hstep_len⟩ := genMutStep_frame a secs st ent ha
      obtain ⟨ih_get, ih_len⟩ := ih (genMutStep a secs st ent) (by omega)
      exact ⟨ih_get.trans hstep_get, le_trans hstep_len ih_len⟩

lemma splitNL_ne_nil (s : List Char) : splitNL s ≠ [] := by
  cases s with
  | nil => simp [splitNL]
  | cons c cs =>
      unfold splitNL
      by_cases h : c = '\n'
      · simp [h]
      · rw [if_neg h]
        cases splitNL cs <;> simp

lemma startsWith_stripCR (c : Char) (l : List Char) (hc : ¬c = '\r') :
    startsWithChar (stripCR (c :: l)) c = true := by
  unfold stripCR
  cases hl : (c :: l).getLast? with
  | none => simp at hl
  | some x =>
      dsimp only
      by_cases hx : x = '\r'
      · rw [if_pos hx]
        cases l with
        | nil =>
            have hxc : x = c := by
              have hcx : c = x := by simpa using hl
              exact hcx.symm
            exact absurd (hxc ▸ hx) hc
        | cons d ds => simp [List.dropLast, startsWithChar]
      · rw [if_neg hx]
        simp [startsWithChar]

lemma dropTrailingEmpty_cons_ne (x : List Char) (xs : List (List Char)) (hx : x ≠ []) :
    ∃ ys, dropTrailingEmpty (x :: xs) = x :: ys := by
  unfold dropTrailingEmpty
  cases hlast : ((x :: xs).getLast?) with
  | none => exact ⟨xs, rfl⟩
  | some y =>
      cases y with
      | nil =>
          dsimp only
          cases xs with
          | nil =>
              have hxany : x = [] := by simpa using hlast
              exact absurd hxany hx
          | cons z zs => exact ⟨(z :: zs).dropLast, rfl⟩
      | cons d ds => exact ⟨xs, rfl⟩

lemma rustLines_head_lbrace (s : List Char) (hs : startsWithChar s '{' = true) :
    ∃ l ls, rustLines s = l :: ls ∧ startsWithChar l '{' = true := by
  cases s with
  | nil => simp [startsWithChar] at hs
  | cons c cs =>
      have hc : c = '{' := by simpa [startsWithChar] using hs
      subst hc
      unfold rustLines
      obtain ⟨l, ls, hsplit⟩ : ∃ l ls, splitNL ('{' :: cs) = ('{' :: l) :: ls := by
        unfold splitNL
        rw [if_neg (by decide)]
        cases h : splitNL cs with
        | nil => exact absurd h (splitNL_ne_nil cs)
        | cons x xs => exact ⟨x, xs, rfl⟩
      rw [hsplit]
      obtain ⟨ys, hdrop⟩ := dropTrailingEmpty_cons_ne ('{' :: l) ls (by simp)
      rw [hdrop, List.map_cons]
      exact ⟨stripCR ('{' :: l), ys.map stripCR, rfl,
        startsWith_stripCR '{' l (by decide)⟩

lemma dropWhile_eq_nil_of_all {α : Type} (p : α → Bool) (l : List α)
    (h : ∀ x ∈ l, p x = true) : l.dropWhile p = [] := by
  induction l with
  | nil => rfl
  | cons a l ih =>
      rw [List.dropWhile_cons, if_pos (h a (List.mem_cons_self a l))]
      exact ih (fun x hx => h x (List.mem_cons_of_mem a hx))

/-- The spec-modelled Trial Protocol at `count = 6` computes exactly the figure
the source's `run_write` returns, when handed the absorbed per-trial write
outcomes: the generalization agrees with the hardcoded loop. -/
theorem run_trials_six_matches_run_write (op : Nat → Except DtErr Nat) :
    run_trials 6 (fun i => absorb (op i)) = Except.ok (run_write op).2 := rfl

/-- C1: for every Job Document (unique section names, containing a `global`
section), the Job Splitter produces exactly as many Jobs as there are
non-global sections, each Job carries the `global` section with its key/value
pairs unchanged plus exactly one non-global section taken from the document,
and that retained section has its `startdelay` key set to the string "0". -/
theorem splitter_splits_sections (doc : Ini)
    (hnd : doc.sectionNames.Nodup) (hg : "global" ∈ doc.sectionNames) :
    ∃ jobs, gen_fio_job_configs doc = some jobs ∧
      jobs.length = (doc.sections.filter (fun s => s.1 ≠ "global")).length ∧
      ∀ job ∈ jobs,
        job.getSection "global" = doc.getSection "global" ∧
        (job.getSection "global").isSome = true ∧
        ∃ t kvs, t ≠ "global" ∧ doc.getSection t = some kvs ∧
          job.sections.filter (fun s => s.1 ≠ "global")
            = [(t, setKV kvs "startdelay" (some "0"))] ∧
          job.get t "startdelay" = some (some "0") := by
  have hne : doc.sections ≠ [] := by
    intro h
    rw [Ini.sectionNames, h] at hg
    simp at hg
  refine ⟨_, gen_eq doc hne, ?_, ?_⟩
  · rw [List.length_map]
    show (List.filter _ (doc.sections.map Prod.fst)).length = _
    rw [List.filter_map, List.length_map]
    rfl
  · intro job hjob
    rw [List.mem_map] at hjob
    obtain ⟨t, htf, hjob⟩ := hjob
    rw [List.mem_filter] at htf
    obtain ⟨htmem, htg'⟩ := htf
    have htg : t ≠ "global" := by simpa using htg'
    obtain ⟨h1, h2, kvs, h3, h4, h5, _h6⟩ := mkJob_shape doc t hnd hg htmem htg
    subst hjob
    exact ⟨h1, h2, t, kvs, htg, h3, h4, h5⟩

/-- Witness for C1: the theorem applied to a three-section document. -/
theorem splitter_splits_sections_witness :
    ∃ jobs,
      gen_fio_job_configs
          ⟨[("global", [("ioengine", some "libaio")]),
            ("seq-read", [("rw", some "read")]),
            ("seq-write", [("rw", some "write")])]⟩ = some jobs ∧
      jobs.length
        = ((⟨[("global", [("ioengine", some "libaio")]),
            ("seq-read", [("rw", some "read")]),
            ("seq-write", [("rw", some "write")])]⟩ : Ini).sections.filter
              (fun s => s.1 ≠ "global")).length ∧
      ∀ job ∈ jobs,
        job.getSection "global"
            = Ini.getSection ⟨[("global", [("ioengine", some "libaio")]),
                ("seq-read", [("rw", some "read")]),
                ("seq-write", [("rw", some "write")])]⟩ "global" ∧
        (job.getSection "global").isSome = true ∧
        ∃ t kvs, t ≠ "global" ∧
          Ini.getSection ⟨[("global", [("ioengine", some "libaio")]),
              ("seq-read", [("rw", some "read")]),
              ("seq-write", [("rw", some "write")])]⟩ t = some kvs ∧
          job.sections.filter (fun s => s.1 ≠ "global")
            = [(t, setKV kvs "startdelay" (some "0"))] ∧
          job.get t "startdelay" = some (some "0") :=
  splitter_splits_sections
    ⟨[("global", [("ioengine", some "libaio")]),
      ("seq-read", [("rw", some "read")]),
      ("seq-write", [("rw", some "write")])]⟩ (by decide) (by decide)

/-- C2 counterexample: with per-trial write results 0, 0, 0, 0, 0, 7 (warmup
included), the figure `run_write` returns is 1, while the arithmetic mean of
the five retained results is 7/5 — the u64 division truncates, so the returned
figure is not the arithmetic mean as claimed. -/
theorem run_write_mean_not_exact :
    ((run_write cexWriteOp).2 : ℚ)
      ≠ ((absorb (cexWriteOp 1) : ℚ) + absorb (cexWriteOp 2) + absorb (cexWriteOp 3)
          + absorb (cexWriteOp 4) + absorb (cexWriteOp 5)) / 5 := by
  have h1 : (run_write cexWriteOp).2 = 1 := rfl
  have h2 : absorb (cexWriteOp 1) = 0 := rfl
  have h3 : absorb (cexWriteOp 2) = 0 := rfl
  have h4 : absorb (cexWriteOp 3) = 0 := rfl
  have h5 : absorb (cexWriteOp 4) = 0 := rfl
  have h6 : absorb (cexWriteOp 5) = 7 := rfl
  rw [h1, h2, h3, h4, h5, h6]
  norm_num

/-- C2 amended: in both `run_write` and `run_verify` (the latter on an
all-successful operation) the backend operation is executed exactly 6 times,
the first result is discarded as warmup, and the returned figure is the
integer-truncated arithmetic mean — the u64 quotient of the sum of the 5
retained results by 5 (exact whenever the sum is divisible by 5 and below
2^64). -/
theorem trial_protocol_six_truncated_mean (op : Nat → Except DtErr Nat) (v : Nat → Nat)
    (hw : absorb (op 1) + absorb (op 2) + absorb (op 3) + absorb (op 4) + absorb (op 5) < U64)
    (hv : v 1 + v 2 + v 3 + v 4 + v 5 < U64) :
    ((run_write op).1.countP DtEvent.isExec = 6 ∧
      (run_write op).2
        = (absorb (op 1) + absorb (op 2) + absorb (op 3) + absorb (op 4) + absorb (op 5)) / 5) ∧
    ((run_verify (fun i => Except.ok (v i))).1.countP DtEvent.isExec = 6 ∧
      (run_verify (fun i => Except.ok (v i))).2
        = Except.ok ((v 1 + v 2 + v 3 + v 4 + v 5) / 5)) := by
  refine ⟨⟨rfl, ?_⟩, ⟨rfl, ?_⟩⟩
  · show u64sum [absorb (op 1), absorb (op 2), absorb (op 3), absorb (op 4), absorb (op 5)] / 5 = _
    rw [u64sum_eq_sum _ _ _ _ _ hw]
  · show Except.ok (u64sum [v 1, v 2, v 3, v 4, v 5] / 5) = _
    rw [u64sum_eq_sum _ _ _ _ _ hv]

/-- Witness for the amended C2: constant results 2 (write) and 3 (verify). -/
theorem trial_protocol_six_truncated_mean_witness :
    ((run_write (fun _ => Except.ok 2)).1.countP DtEvent.isExec = 6 ∧
      (run_write (fun _ => Except.ok 2)).2 = 2) ∧
    ((run_verify (fun _ => Except.ok 3)).1.countP DtEvent.isExec = 6 ∧
      (run_verify (fun _ => Except.ok 3)).2 = Except.ok 3) := by
  have h := trial_protocol_six_truncated_mean (fun _ => Except.ok 2) (fun _ => 3)
    (by decide) (by decide)
  exact ⟨⟨h.1.1, h.1.2.trans (by norm_num [absorb])⟩, ⟨h.2.1, h.2.2.trans (by norm_num)⟩⟩

/-- C3 counterexample: on the output text
"noise\nmore noise\n\x7b"a":1\x7d\ntrailing" the extraction keeps everything
from the first brace-line to end-of-output, including the "trailing" line, so
the JSON decode fails with MalformedOutput instead of succeeding as claimed. -/
theorem parse_output_trailing_fails :
    parse_job_output "noise\nmore noise\n\x7b\"a\":1\x7d\ntrailing".toList
      = Except.error BackendError.malformedOutput := rfl

/-- C3 amended: the driver drops all lines before the first line starting with
a brace and treats everything from there to end-of-output as the payload; on
the claim's input the retained "trailing" line makes the decode fail, and with
that line absent the decode succeeds with the object mapping "a" to 1. -/
theorem parse_output_extraction_amended :
    parse_job_output "noise\nmore noise\n\x7b\"a\":1\x7d".toList
      = Except.ok (Json.obj [(['a'], Json.num ['1'])]) := rfl

/-- C4: for every output text in which no line starts with a brace, the
driver's result parsing fails with the typed error MalformedOutput. -/
theorem parse_output_no_brace_malformed (output : List Char)
    (h : ∀ l ∈ rustLines output, startsWithChar l '{' = false) :
    parse_job_output output = Except.error BackendError.malformedOutput := by
  have hns : startsWithChar output '{' = false := by
    cases hsw : startsWithChar output '{' with
    | false => rfl
    | true =>
        obtain ⟨l, ls, hrl, hl⟩ := rustLines_head_lbrace output hsw
        have hfalse := h l (by rw [hrl]; exact List.mem_cons_self _ _)
        rw [hfalse] at hl
        exact absurd hl (by simp)
  unfold parse_job_output
  dsimp only
  rw [if_neg (by simp [hns])]
  rw [dropWhile_eq_nil_of_all _ _ (fun x hx => by simp [h x hx])]
  rfl

/-- Witness for C4: a two-line output with no brace anywhere. -/
theorem parse_output_no_brace_malformed_witness :
    parse_job_output "plain noise\nno json here".toList
      = Except.error BackendError.malformedOutput :=
  parse_output_no_brace_malformed "plain noise\nno json here".toList (by decide)

/-- C5: every per-trial failure of the write operation is absorbed to a zero
measurement and the loop runs all 6 iterations regardless, the returned figure
aggregating the absorbed values; while the first failure of the verify
operation (at index j, all earlier trials succeeding) aborts the run
immediately with that error, after exactly j+1 executions. -/
theorem write_absorbs_verify_fatal
    (op op' : Nat → Except DtErr Nat) (j : Nat) (e : DtErr)
    (hj : j < 6) (hfail : op' j = Except.error e)
    (hok : ∀ i, i < j → ∃ w, op' i = Except.ok w) :
    ((run_write op).1.countP DtEvent.isExec = 6 ∧
      (run_write op).2
        = u64sum [absorb (op 1), absorb (op 2), absorb (op 3), absorb (op 4),
            absorb (op 5)] / 5) ∧
    ((run_verify op').2 = Except.error e ∧
      (run_verify op').1.countP DtEvent.isExec = j + 1) := by
  refine ⟨⟨rfl, rfl⟩, ?_⟩
  interval_cases j
  · simp [run_verify, run_verify_go, hfail, List.countP, List.countP.go, DtEvent.isExec]
  · obtain ⟨w0, h0⟩ := hok 0 (by omega)
    simp [run_verify, run_verify_go, h0, hfail, List.countP, List.countP.go, DtEvent.isExec]
  · obtain ⟨w0, h0⟩ := hok 0 (by omega)
    obtain ⟨w1, h1⟩ := hok 1 (by omega)
    simp [run_verify, run_verify_go, h0, h1, hfail, List.countP, List.countP.go, DtEvent.isExec]
  · obtain ⟨w0, h0⟩ := hok 0 (by omega)
    obtain ⟨w1, h1⟩ := hok 1 (by omega)
    obtain ⟨w2, h2⟩ := hok 2 (by omega)
    simp [run_verify, run_verify_go, h0, h1, h2, hfail, List.countP, List.countP.go,
      DtEvent.isExec]
  · obtain ⟨w0, h0⟩ := hok 0 (by omega)
    obtain ⟨w1, h1⟩ := hok 1 (by omega)
    obtain ⟨w2, h2⟩ := hok 2 (by omega)
    obtain ⟨w3, h3⟩ := hok 3 (by omega)
    simp [run_verify, run_verify_go, h0, h1, h2, h3, hfail, List.countP, List.countP.go,
      DtEvent.isExec]
  · obtain ⟨w0, h0⟩ := hok 0 (by omega)
    obtain ⟨w1, h1⟩ := hok 1 (by omega)
    obtain ⟨w2, h2⟩ := hok 2 (by omega)
    obtain ⟨w3, h3⟩ := hok 3 (by omega)
    obtain ⟨w4, h4⟩ := hok 4 (by omega)
    simp [run_verify, run_verify_go, h0, h1, h2, h3, h4, hfail, List.countP, List.countP.go,
      DtEvent.isExec]

/-- Witness for C5: all write trials failing, and verify failing at index 2. -/
theorem write_absorbs_verify_fatal_witness :
    (((run_write (fun _ => Except.error DtErr.fail)).1.countP DtEvent.isExec = 6 ∧
      (run_write (fun _ => Except.error DtErr.fail)).2
        = u64sum [absorb (Except.error DtErr.fail), absorb (Except.error DtErr.fail),
            absorb (Except.error DtErr.fail), absorb (Except.error DtErr.fail),
            absorb (Except.error DtErr.fail)] / 5) ∧
     ((run_verify (fun i => if i = 2 then Except.error DtErr.fail else Except.ok 5)).2
        = Except.error DtErr.fail ∧
      (run_verify (fun i => if i = 2 then Except.error DtErr.fail else Except.ok 5)).1.countP
          DtEvent.isExec = 2 + 1)) :=
  write_absorbs_verify_fatal (fun _ => Except.error DtErr.fail)
    (fun i => if i = 2 then Except.error DtErr.fail else Except.ok 5) 2 DtErr.fail
    (by omega) (by rfl) (fun i hi => ⟨5, if_neg (by omega)⟩)

/-- C6: for every Job Document (unique section names, containing a `global`
section), the produced Jobs appear in the document's section order: the
per-job retained section names, in output order, equal the document's
non-global section names in document order. -/
theorem splitter_preserves_order (doc : Ini)
    (hnd : doc.sectionNames.Nodup) (hg : "global" ∈ doc.sectionNames) :
    ∃ jobs, gen_fio_job_configs doc = some jobs ∧
      jobs.map (fun job => (job.sections.map Prod.fst).filter (fun s => s ≠ "global"))
        = (doc.sectionNames.filter (fun s => s ≠ "global")).map (fun t => [t]) := by
  have hne : doc.sections ≠ [] := by
    intro h
    rw [Ini.sectionNames, h] at hg
    simp at hg
  refine ⟨_, gen_eq doc hne, ?_⟩
  rw [List.map_map]
  apply List.map_congr_left
  intro t htf
  rw [List.mem_filter] at htf
  obtain ⟨htmem, htg'⟩ := htf
  have htg : t ≠ "global" := by simpa using htg'
  obtain ⟨_h1, _h2, _kvs, _h3, _h4, _h5, h6⟩ := mkJob_shape doc t hnd hg htmem htg
  exact h6

/-- Witness for C6: a document with sections global, a, b in that order. -/
theorem splitter_preserves_order_witness :
    ∃ jobs,
      gen_fio_job_configs
          ⟨[("global", []), ("a", [("rw", some "read")]), ("b", [("rw", some "write")])]⟩
        = some jobs ∧
      jobs.map (fun job => (job.sections.map Prod.fst).filter (fun s => s ≠ "global"))
        = ((⟨[("global", []), ("a", [("rw", some "read")]),
            ("b", [("rw", some "write")])]⟩ : Ini).sectionNames.filter
              (fun s => s ≠ "global")).map (fun t => [t]) :=
  splitter_preserves_order
    ⟨[("global", []), ("a", [("rw", some "read")]), ("b", [("rw", some "write")])]⟩
    (by decide) (by decide)

/-- C7 counterexample: a verify trial sequence with all operations succeeding
produces a trace of six executions and no sleep event at all — no 5-second
quiescence delay is inserted between consecutive executions of `run_verify`. -/
theorem run_verify_never_sleeps :
    (run_verify (fun _ => Except.ok 0)).1
      = [DtEvent.exec 0, DtEvent.exec 1, DtEvent.exec 2, DtEvent.exec 3,
         DtEvent.exec 4, DtEvent.exec 5] := rfl

/-- C7 amended: only the write flow sleeps — `run_write` sleeps 5 seconds
after every execution (in particular between consecutive executions), while
`run_verify` performs its executions with no delay between them. -/
theorem sleep_in_write_flow_only (op : Nat → Except DtErr Nat) (v : Nat → Nat) :
    (run_write op).1 = [DtEvent.exec 0, DtEvent.sleep 5, DtEvent.exec 1, DtEvent.sleep 5,
      DtEvent.exec 2, DtEvent.sleep 5, DtEvent.exec 3, DtEvent.sleep 5,
      DtEvent.exec 4, DtEvent.sleep 5, DtEvent.exec 5, DtEvent.sleep 5] ∧
    (run_verify (fun i => Except.ok (v i))).1
      = [DtEvent.exec 0, DtEvent.exec 1, DtEvent.exec 2, DtEvent.exec 3,
         DtEvent.exec 4, DtEvent.exec 5] :=
  ⟨rfl, rfl⟩

/-- C8: the Trial Protocol with `count = 1` retains zero results after
discarding the warmup and signals AggregationError (the embedded form of the
u64 division by zero) instead of computing a mean. -/
theorem run_trials_count_one_error (op : Nat → Nat) :
    run_trials 1 op = Except.error AggError.aggregationError := rfl

/-- C9: a Job Document whose only section is `global` yields an empty job
sequence, not an error. -/
theorem splitter_global_only_empty (doc : Ini)
    (hall : ∀ s ∈ doc.sections, s.1 = "global") (hne : doc.sections ≠ []) :
    gen_fio_job_configs doc = some [] := by
  rw [gen_eq doc hne]
  have hnil : doc.sectionNames.filter (fun s => s ≠ "global") = [] := by
    rw [List.filter_eq_nil_iff]
    intro a ha
    obtain ⟨s, hs, hfst⟩ := List.mem_map.mp ha
    simp [← hfst, hall s hs]
  rw [hnil]
  rfl

/-- Witness for C9: a document holding only a `global` section. -/
theorem splitter_global_only_empty_witness :
    gen_fio_job_configs ⟨[("global", [("rw", some "read")])]⟩ = some [] :=
  splitter_global_only_empty ⟨[("global", [("rw", some "read")])]⟩ (by decide) (by decide)

/-- C10: the Job Splitter leaves the input document unchanged — in the
explicit-mutation embedding, where every `remove_section`/`set` call writes to
the freshly allocated clone cell, the cell holding the borrowed input document
is identical before and after the call. -/
theorem splitter_input_unchanged (h0 : List Ini) (a : Nat) (ha : a < h0.length)
    (hfin : List Ini) (jobs : List Nat)
    (hres : gen_fio_job_configs_mut h0 a = some (hfin, jobs)) :
    readIni hfin a = readIni h0 a := by
  unfold gen_fio_job_configs_mut at hres
  cases hmap : (readIni h0 a).get_map with
  | none => rw [hmap] at hres; exact absurd hres (by simp)
  | some map =>
      rw [hmap] at hres
      have hfold := foldl_genMutStep_frame a ((readIni h0 a).sectionNames) map (h0, []) ha
      have heq : (map.foldl (genMutStep a ((readIni h0 a).sectionNames)) (h0, [])).1 = hfin := by
        have heq2 := Option.some.inj hres
        rw [heq2]
      unfold readIni
      rw [← heq, hfold.1]

/-- Witness for C10: splitting a two-section document stored at address 0
allocates the job at address 1 and leaves the document at address 0 intact. -/
theorem splitter_input_unchanged_witness :
    readIni [⟨[("global", [("k", some "v")]), ("j1", [("rw", some "read")])]⟩,
        ⟨[("global", [("k", some "v")]),
          ("j1", [("rw", some "read"), ("startdelay", some "0")])]⟩] 0
      = readIni [⟨[("global", [("k", some "v")]), ("j1", [("rw", some "read")])]⟩] 0 :=
  splitter_input_unchanged
    [⟨[("global", [("k", some "v")]), ("j1", [("rw", some "read")])]⟩] 0 (by decide)
    [⟨[("global", [("k", some "v")]), ("j1", [("rw", some "read")])]⟩,
     ⟨[("global", [("k", some "v")]),
       ("j1", [("rw", some "read"), ("startdelay", some "0")])]⟩] [1] (by decide)
